import Mathlib

/-!
# daily-set realtime gateway: room registry, dispatcher, fanout, token extraction, backoff

A shallow embedding of `realtime/main.go`.

* A Go `map[K]struct{}` is a `GoSet K`: its keys, without repetition, in the order in
  which `range` enumerates them (Go leaves that order unspecified; every order is a
  value of the type).
* A Go `map[string]V` that is only indexed, assigned and deleted by key is a function
  `String → Option V` (`none`: key absent).
* A `*Client` is a pointer `Ptr`; the client structs live in a heap `Ptr → Client`.
  Every client carries a non-nil `rooms` map, as `wsHandler` and the tests build it.
* Each entry of `s.rooms` holds a member map of its own, as `joinRoom` makes it: no two
  room names share one map object.
* `time.Time` is a number of nanoseconds, `0` being the zero time (`IsZero`).
* I/O is recorded as a list of events, in program order.
-/

namespace Realtime

/-- A Go `map[K]struct{}`: the keys, each once, in `range` order. -/
structure GoSet (α : Type) where
  keys : List α
  nodup : keys.Nodup
deriving DecidableEq

namespace GoSet

variable {α : Type} [DecidableEq α]

/-- The map built by `make(map[K]struct{})` or the literal `map[K]struct{}{}`. -/
def empty : GoSet α := ⟨[], List.nodup_nil⟩

/-- The assignment `m[k] = struct{}{}`. -/
def insert (m : GoSet α) (k : α) : GoSet α := ⟨m.keys.insert k, m.nodup.insert⟩

/-- The builtin `delete(m, k)`. -/
def erase (m : GoSet α) (k : α) : GoSet α := ⟨m.keys.erase k, m.nodup.erase k⟩

/-- The builtin `len(m)`. -/
def len (m : GoSet α) : Nat := m.keys.length

end GoSet

/-- A `*Client` value: the identity of one connected client. -/
abbrev Ptr := Nat

/-- Envelope is the cross-service message format. `Typ` is the field `Type` (a reserved
word here); `TS = 0` is the zero `time.Time`; `Payload` is the raw JSON text. -/
structure Envelope where
  V : Int
  Typ : String
  Room : String
  From : String
  ID : String
  TS : Nat
  Payload : String
deriving DecidableEq

/-- Client represents a connected websocket client (the connection and its write mutex
appear as `Event.send`). -/
structure Client where
  id : String
  userID : String
  rooms : GoSet String

/-- RealtimeServer holds state for WS <-> NATS bridging. `nats` is `s.nats != nil`;
`rooms` is room -> set of clients. -/
structure RealtimeServer where
  nats : Bool
  rooms : String → Option (GoSet Ptr)

/-- The server together with the client structs its pointers refer to. -/
structure State where
  s : RealtimeServer
  heap : Ptr → Client

/-- The constructor: `rooms: make(map[string]map[*Client]struct{})`. -/
def NewRealtimeServer (nc : Bool) : RealtimeServer :=
  { nats := nc, rooms := fun _ => none }

/-- A heap in which every client has the fields `wsHandler` gives a new client before any
join: `rooms: map[string]struct{}{}`. -/
def freshHeap : Ptr → Client := fun _ => { id := "", userID := "", rooms := GoSet.empty }

/-- The members of a room, `s.rooms[room]` (no entry: the nil map, without keys). -/
def members (st : State) (room : String) : List Ptr :=
  match st.s.rooms room with
  | some peers => peers.keys
  | none => []

/-- The room names in `c.rooms`. -/
def clientRooms (st : State) (c : Ptr) : List String :=
  (st.heap c).rooms.keys

/-- The method `joinRoom`, the whole body under `roomsMu.Lock()`. -/
def joinRoom (st : State) (c : Ptr) (room : String) : State :=
  -- if s.rooms[room] == nil { s.rooms[room] = make(map[*Client]struct{}) }
  let peers : GoSet Ptr :=
    match st.s.rooms room with
    | some p => p
    | none => GoSet.empty
  -- s.rooms[room][c] = struct{}{} ; c.rooms[room] = struct{}{}
  { s := { st.s with rooms := Function.update st.s.rooms room (some (peers.insert c)) },
    heap := Function.update st.heap c
      { st.heap c with rooms := (st.heap c).rooms.insert room } }

/-- One iteration of the loop of `leaveAll`, for the key `room`. -/
def leaveStep (c : Ptr) (st : State) (room : String) : State :=
  -- if peers, ok := s.rooms[room]; ok { delete(peers, c); if len(peers) == 0 { delete(s.rooms, room) } }
  let rooms1 : String → Option (GoSet Ptr) :=
    match st.s.rooms room with
    | some peers =>
      if (peers.erase c).len = 0 then Function.update st.s.rooms room none
      else Function.update st.s.rooms room (some (peers.erase c))
    | none => st.s.rooms
  -- delete(c.rooms, room)
  { s := { st.s with rooms := rooms1 },
    heap := Function.update st.heap c
      { st.heap c with rooms := (st.heap c).rooms.erase room } }

/-- The method `leaveAll`: `for room := range c.rooms`, the whole body under
`roomsMu.Lock()`. The loop deletes only the key it is visiting, so every key that
`c.rooms` holds on entry is visited once. -/
def leaveAll (st : State) (c : Ptr) : State :=
  (clientRooms st c).foldl (leaveStep c) st

/-- A call on the registry. -/
inductive Op where
  | join (c : Ptr) (room : String)
  | leave (c : Ptr)

/-- Run a finite sequence of registry calls, first call first. -/
def run (st : State) : List Op → State
  | [] => st
  | Op.join c room :: ops => run (joinRoom st c room) ops
  | Op.leave c :: ops => run (leaveAll st c) ops

/-- Bidirectional consistency: `c` is in `rooms[r]` iff `r` is in `c.rooms`. -/
def Consistent (st : State) : Prop :=
  ∀ (r : String) (c : Ptr), c ∈ members st r ↔ r ∈ clientRooms st c

/-- No empty rooms: every key of `s.rooms` has at least one member. -/
def NoEmptyRooms (st : State) : Prop :=
  ∀ (r : String) (peers : GoSet Ptr), st.s.rooms r = some peers → 1 ≤ peers.len

/-- The effect of `leaveAll` on one entry of `s.rooms` that it visits. -/
def dropMember (c : Ptr) : Option (GoSet Ptr) → Option (GoSet Ptr)
  | some peers => if (peers.erase c).len = 0 then none else some (peers.erase c)
  | none => none

/-! ## Envelopes, events and the dispatcher -/

/-- What the code does to the outside world, in program order. -/
inductive Event where
  /-- The call `c.send(ctx, v)`: one `wsjson.Write` on the client's connection, under `c.mu`;
  its error is discarded by every caller. -/
  | send (peer : Ptr) (v : Envelope)
  /-- The call `s.nats.Publish(subj, b)` with `b` the JSON of `env`. -/
  | publish (subj : String) (env : Envelope)
  /-- The call `s.roomsMu.RLock()`. -/
  | rlock
  /-- The call `s.roomsMu.RUnlock()`. -/
  | runlock
  /-- The call `client.conn.Close(ws.StatusNormalClosure, "bye")`. -/
  | close (peer : Ptr)
deriving DecidableEq

/-- The constant `alphabet` of `randomID`. -/
def alphabet : List Char := "abcdefghijklmnopqrstuvwxyz0123456789".toList

/-- The function `randomID`; `draws i` is the value `rand.Int` returns in round `i`, below
`len(alphabet) = 36`. -/
def randomID (draws : Fin 16 → Fin 36) : String :=
  String.mk ((List.finRange 16).map fun i => alphabet.getD (draws i).val 'a')

/-- The defaults `handleClientMessages` sets on an envelope it has read; `now` is
`time.Now().UTC()`. -/
def normalize (env : Envelope) (draws : Fin 16 → Fin 36) (now : Nat) : Envelope :=
  let env1 := if env.V = 0 then { env with V := 1 } else env
  let env2 := if env1.ID = "" then { env1 with ID := randomID draws } else env1
  if env2.TS = 0 then { env2 with TS := now } else env2

/-- The method `publishAction`: nothing without a NATS connection, else one publish on
`room.<Room>.action` (a publish error is only logged). -/
def publishAction (s : RealtimeServer) (env : Envelope) : List Event :=
  if s.nats = false then []
  else [Event.publish ("room." ++ env.Room ++ ".action") env]

/-- The method `processMessage`: the returned flag, the state after the call and the
events of the call; `now` is `time.Now().UTC()` of the reply. -/
def processMessage (st : State) (now : Nat) (client : Ptr) (env : Envelope) :
    Bool × State × List Event :=
  if env.Typ = "ping" then
    (true, st, [Event.send client
      { V := 1, Typ := "pong", Room := "", From := "", ID := env.ID, TS := now, Payload := "" }])
  else if env.Typ = "subscribe" then
    if env.Room ≠ "" then
      (true, joinRoom st client env.Room, [Event.send client
        { V := 1, Typ := "subscribed", Room := env.Room, From := "", ID := env.ID, TS := now,
          Payload := "" }])
    else (true, st, [])
  else if env.Typ = "action" then
    (true, st, publishAction st.s env)
  else
    (true, st, [])

/-- One successful `wsjson.Read` of the loop, with the random draws and the two clock
readings the iteration may use. -/
structure Read where
  env : Envelope
  draws : Fin 16 → Fin 36
  tNorm : Nat
  tReply : Nat

/-- The method `handleClientMessages`: the envelopes read before the read error that ends
the loop, then the cleanup. -/
def handleClientMessages (st : State) (client : Ptr) : List Read → State × List Event
  | [] => (leaveAll st client, [Event.close client])
  | r :: rest =>
    let res := processMessage st r.tReply client (normalize r.env r.draws r.tNorm)
    if res.1 then
      let fin := handleClientMessages res.2.1 client rest
      (fin.1, res.2.2 ++ fin.2)
    else (leaveAll res.2.1 client, res.2.2 ++ [Event.close client])

/-! ## Inbound fanout -/

/-- The call `strings.Split(s, sep)` for a separator of one character, on characters. -/
def splitChars (sep : Char) : List Char → List (List Char)
  | [] => [[]]
  | c :: cs =>
    if c = sep then [] :: splitChars sep cs
    else
      match splitChars sep cs with
      | [] => [[c]]
      | p :: ps => (c :: p) :: ps

/-- The call `strings.Split(s, ".")`. -/
def Split (s : String) : List String :=
  (splitChars '.' s.data).map String.mk

/-- A `nats.Msg`: the subject and what `json.Unmarshal(m.Data, &env)` makes of the data
(`none`: an error; a field the JSON lacks keeps its zero value). -/
structure Msg where
  Subject : String
  Data : Option Envelope

/-- The method `handleRoomUpdate`; `now` is `time.Now().UTC()`. Each send has its own
5 s timeout context. -/
def handleRoomUpdate (st : State) (now : Nat) (m : Msg) : State × List Event :=
  match Split m.Subject with
  | _ :: roomID :: _ :: _ =>
    match m.Data with
    | none => (st, [])
    | some env0 =>
      let env : Envelope := { env0 with V := 1, TS := now }
      (st, [Event.rlock] ++ (members st roomID).map (fun peer => Event.send peer env)
        ++ [Event.runlock])
  | _ => (st, [])

/-- The number of `send` calls addressed to `p` in a trace. -/
def sendsTo (p : Ptr) : List Event → Nat
  | [] => 0
  | Event.send q _ :: es => (if q = p then 1 else 0) + sendsTo p es
  | _ :: es => sendsTo p es

/-- The envelopes that leave the gateway in a trace: those sent to a client and those
published to the backbone. -/
def outgoing : List Event → List Envelope
  | [] => []
  | Event.send _ v :: es => v :: outgoing es
  | Event.publish _ v :: es => v :: outgoing es
  | _ :: es => outgoing es

/-- Whether a trace has a `send` while the read lock is held; `held` is the lock's state
on entry. -/
def sendUnderRLock (held : Bool) : List Event → Bool
  | [] => false
  | Event.rlock :: es => sendUnderRLock true es
  | Event.runlock :: es => sendUnderRLock false es
  | Event.send _ _ :: es => held || sendUnderRLock held es
  | _ :: es => sendUnderRLock held es

/-- Whether an event is a `send`. -/
def isSend : Event → Bool
  | Event.send _ _ => true
  | _ => false

/-! ## Token extraction -/

/-- The part of an `http.Request` that `extractToken` reads: the first value of the
`Authorization` header and of the `token` query parameter (`none`: not present; `Get`
then returns the empty string). -/
structure Request where
  Authorization : Option String
  token : Option String

/-- The predicate `unicode.IsSpace`. -/
def isSpace (c : Char) : Bool :=
  c.toNat = 0x09 || c.toNat = 0x0A || c.toNat = 0x0B || c.toNat = 0x0C || c.toNat = 0x0D ||
  c.toNat = 0x20 || c.toNat = 0x85 || c.toNat = 0xA0 || c.toNat = 0x1680 ||
  (0x2000 ≤ c.toNat && c.toNat ≤ 0x200A) ||
  c.toNat = 0x2028 || c.toNat = 0x2029 || c.toNat = 0x202F || c.toNat = 0x205F ||
  c.toNat = 0x3000

/-- The call `strings.TrimSpace`. -/
def TrimSpace (s : List Char) : List Char :=
  ((s.dropWhile isSpace).reverse.dropWhile isSpace).reverse

/-- The call `strings.ToLower`, on the ASCII capitals. Its result is only compared with
the prefix `bearer `, and the only characters that lower-case to a letter of that prefix
are the letter and its ASCII capital. -/
def ToLower (s : List Char) : List Char := s.map Char.toLower

/-- The call `strings.HasPrefix`. -/
def HasPrefix (s pre : List Char) : Bool := pre.isPrefixOf s

/-- The function `extractToken`. When the prefix test succeeds the first seven bytes of
`auth` are seven ASCII characters, so `auth[7:]` drops seven characters. -/
def extractToken (r : Request) : String :=
  let auth := (r.Authorization.getD "").data
  let token : List Char :=
    if HasPrefix (ToLower auth) "bearer ".data then TrimSpace (auth.drop 7) else []
  if token = [] then r.token.getD "" else String.mk token

/-! ## Reconnect backoff -/

/-- The constant `time.Millisecond`, in nanoseconds. -/
def Millisecond : Int := 1000000

/-- The constant `time.Second`, in nanoseconds. -/
def Second : Int := 1000000000

/-- The conversion `time.Duration(float64(base) * math.Pow(2, float64(attempt)))` with
`base = 250ms`. Scaling by a power of two is exact in `float64`; the conversion truncates.
From attempt 36 on the product is outside `int64` and the conversion is left to the
platform: `none`. -/
def scaledBase (attempt : Int) : Option Int :=
  if attempt < 0 then some (250 * Millisecond / 2 ^ attempt.natAbs)
  else if attempt ≤ 35 then some (250 * Millisecond * 2 ^ attempt.toNat)
  else none

/-- The function `randInt`; `n` is the value `rand.Int` returns, below `max - min`. -/
def randInt (min max : Int) (n : Nat) : Int :=
  if max ≤ min then min else (n : Int) + min

/-- The function `exponentialBackoff`; `n` is the value `rand.Int` returns inside
`randInt(0, 250)`. -/
def exponentialBackoff (attempt : Int) (n : Nat) : Option Int :=
  (scaledBase attempt).map fun d0 =>
    let d := if d0 > 10 * Second then 10 * Second else d0
    d + randInt 0 250 n * Millisecond

/-! ## Registry lemmas -/

theorem leaveStep_rooms (c : Ptr) (st : State) (room r : String) :
    (leaveStep c st room).s.rooms r =
      if r = room then dropMember c (st.s.rooms r) else st.s.rooms r := by
  unfold leaveStep
  by_cases h : r = room
  · subst h
    cases hr : st.s.rooms r with
    | none => simp [hr, dropMember]
    | some p =>
      by_cases hl : (p.erase c).len = 0 <;> simp [hr, dropMember, hl]
  · cases hr : st.s.rooms room with
    | none => simp [h]
    | some p =>
      by_cases hl : (p.erase c).len = 0 <;> simp [hl, h, Function.update_noteq]

theorem leaveStep_heap (c : Ptr) (st : State) (room : String) (c' : Ptr) :
    clientRooms (leaveStep c st room) c' =
      if c' = c then (clientRooms st c).erase room else clientRooms st c' := by
  unfold leaveStep clientRooms
  by_cases h : c' = c
  · subst h; simp [GoSet.erase]
  · simp [h, Function.update_noteq]

theorem dropMember_idem (c : Ptr) (o : Option (GoSet Ptr)) :
    dropMember c (dropMember c o) = dropMember c o := by
  cases o with
  | none => rfl
  | some p =>
    by_cases hl : (p.erase c).len = 0
    · simp [dropMember, hl]
    · have he : (p.erase c).erase c = p.erase c := by
        cases p with
        | mk ks nd =>
          simp only [GoSet.erase, GoSet.mk.injEq]
          exact List.erase_of_not_mem (fun hm => ((nd.mem_erase_iff).1 hm).1 rfl)
      simp [dropMember, hl, he]

theorem foldl_leaveStep_rooms (c : Ptr) (r : String) :
    ∀ (L : List String) (st : State),
      (L.foldl (leaveStep c) st).s.rooms r =
        if r ∈ L then dropMember c (st.s.rooms r) else st.s.rooms r := by
  intro L
  induction L with
  | nil => intro st; simp
  | cons room L ih =>
    intro st
    rw [List.foldl_cons, ih, leaveStep_rooms]
    by_cases h1 : r = room
    · subst h1
      by_cases h2 : r ∈ L <;> simp [h2, dropMember_idem]
    · by_cases h2 : r ∈ L <;> simp [h1, h2]

theorem foldl_leaveStep_other (c c' : Ptr) (h : c' ≠ c) :
    ∀ (L : List String) (st : State),
      clientRooms (L.foldl (leaveStep c) st) c' = clientRooms st c' := by
  intro L
  induction L with
  | nil => intro st; rfl
  | cons room L ih =>
    intro st
    rw [List.foldl_cons, ih, leaveStep_heap, if_neg h]

theorem foldl_leaveStep_self (c : Ptr) (r : String) :
    ∀ (L : List String) (st : State),
      r ∈ clientRooms (L.foldl (leaveStep c) st) c ↔ r ∈ clientRooms st c ∧ r ∉ L := by
  intro L
  induction L with
  | nil => intro st; simp
  | cons room L ih =>
    intro st
    have nd : (clientRooms st c).Nodup := (st.heap c).rooms.nodup
    rw [List.foldl_cons, ih, leaveStep_heap, if_pos rfl, nd.mem_erase_iff]
    simp only [List.mem_cons, not_or]
    tauto

theorem foldl_leaveStep_nats (c : Ptr) :
    ∀ (L : List String) (st : State), (L.foldl (leaveStep c) st).s.nats = st.s.nats := by
  intro L
  induction L with
  | nil => intro st; rfl
  | cons room L ih => intro st; rw [List.foldl_cons, ih]; rfl

theorem foldl_leaveStep_heap_other (c c' : Ptr) (h : c' ≠ c) :
    ∀ (L : List String) (st : State), (L.foldl (leaveStep c) st).heap c' = st.heap c' := by
  intro L
  induction L with
  | nil => intro st; rfl
  | cons room L ih =>
    intro st
    rw [List.foldl_cons, ih]
    simp [leaveStep, Function.update_noteq h]

theorem foldl_leaveStep_heap_self (c : Ptr) :
    ∀ (L : List String) (st : State),
      ((L.foldl (leaveStep c) st).heap c).id = (st.heap c).id ∧
      ((L.foldl (leaveStep c) st).heap c).userID = (st.heap c).userID := by
  intro L
  induction L with
  | nil => intro st; exact ⟨rfl, rfl⟩
  | cons room L ih =>
    intro st
    rw [List.foldl_cons]
    refine ⟨(ih _).1.trans ?_, (ih _).2.trans ?_⟩ <;> simp [leaveStep]

theorem leaveAll_rooms (st : State) (c : Ptr) (r : String) :
    (leaveAll st c).s.rooms r =
      if r ∈ clientRooms st c then dropMember c (st.s.rooms r) else st.s.rooms r :=
  foldl_leaveStep_rooms c r (clientRooms st c) st

theorem leaveAll_clientRooms_self (st : State) (c : Ptr) :
    clientRooms (leaveAll st c) c = [] := by
  apply List.eq_nil_iff_forall_not_mem.2
  intro r hr
  have h := (foldl_leaveStep_self c r (clientRooms st c) st).1 hr
  exact h.2 h.1

theorem leaveAll_clientRooms_other (st : State) (c c' : Ptr) (h : c' ≠ c) :
    clientRooms (leaveAll st c) c' = clientRooms st c' :=
  foldl_leaveStep_other c c' h (clientRooms st c) st

/-- The order in which `range` enumerates `c.rooms` does not matter: visiting the keys of
`c.rooms` in any order, even with repetitions, ends in the state of `leaveAll`. -/
theorem leaveAll_any_order (st : State) (c : Ptr) (L : List String)
    (hL : ∀ r, r ∈ L ↔ r ∈ clientRooms st c) :
    L.foldl (leaveStep c) st = leaveAll st c := by
  have key : ∀ (A B : State), A.s.nats = B.s.nats → (∀ r, A.s.rooms r = B.s.rooms r) →
      (∀ c', A.heap c' = B.heap c') → A = B := by
    intro A B h1 h2 h3
    cases A with
    | mk sa ha =>
      cases B with
      | mk sb hb =>
        cases sa; cases sb
        simp only at h1 h2 h3
        have e2 := funext h2
        have e3 := funext h3
        subst h1; subst e2; subst e3
        rfl
  apply key
  · rw [foldl_leaveStep_nats]
    exact (foldl_leaveStep_nats c (clientRooms st c) st).symm
  · intro r
    rw [foldl_leaveStep_rooms]
    show _ = ((clientRooms st c).foldl (leaveStep c) st).s.rooms r
    rw [foldl_leaveStep_rooms]
    by_cases h : r ∈ L
    · rw [if_pos h, if_pos ((hL r).1 h)]
    · rw [if_neg h, if_neg (fun h' => h ((hL r).2 h'))]
  · intro c'
    by_cases h : c' = c
    · subst h
      have k1 : clientRooms (L.foldl (leaveStep c') st) c' = [] := by
        apply List.eq_nil_iff_forall_not_mem.2
        intro r hr
        have := (foldl_leaveStep_self c' r L st).1 hr
        exact this.2 ((hL r).2 this.1)
      have k2 := leaveAll_clientRooms_self st c'
      have i1 := foldl_leaveStep_heap_self c' L st
      have i2 := foldl_leaveStep_heap_self c' (clientRooms st c') st
      unfold clientRooms at k1 k2
      unfold leaveAll clientRooms at *
      generalize (L.foldl (leaveStep c') st).heap c' = X at *
      generalize (((st.heap c').rooms.keys).foldl (leaveStep c') st).heap c' = Y at *
      cases X with
      | mk xi xu xr =>
        cases Y with
        | mk yi yu yr =>
          cases xr; cases yr
          simp only at k1 k2 i1 i2
          subst k1; subst k2
          rw [i1.1, i1.2, i2.1, i2.2]
    · rw [foldl_leaveStep_heap_other c c' h]
      exact (foldl_leaveStep_heap_other c c' h (clientRooms st c) st).symm

/-- The members of an entry that `leaveAll c` has visited: the old members but `c`. -/
theorem mem_dropMember (c x : Ptr) (o : Option (GoSet Ptr)) (st st' : State) (r : String)
    (ho : st.s.rooms r = o) (ho' : st'.s.rooms r = dropMember c o) :
    x ∈ members st' r ↔ x ∈ members st r ∧ x ≠ c := by
  unfold members
  rw [ho, ho']
  cases o with
  | none => simp [dropMember]
  | some p =>
    by_cases hl : (p.erase c).len = 0
    · have hnil : p.keys.erase c = [] := List.length_eq_zero.1 hl
      have hx : x ∈ p.keys.erase c ↔ x ≠ c ∧ x ∈ p.keys := p.nodup.mem_erase_iff
      rw [hnil] at hx
      simp only [dropMember, hl, if_true]
      constructor
      · intro h; cases h
      · intro h; exact absurd (hx.2 ⟨h.2, h.1⟩) (List.not_mem_nil x)
    · have hx : x ∈ (p.erase c).keys ↔ x ≠ c ∧ x ∈ p.keys := p.nodup.mem_erase_iff
      simp only [dropMember, hl, if_false]
      rw [hx]
      tauto

theorem leaveAll_members (st : State) (c x : Ptr) (r : String) :
    x ∈ members (leaveAll st c) r ↔
      x ∈ members st r ∧ (r ∈ clientRooms st c → x ≠ c) := by
  by_cases h : r ∈ clientRooms st c
  · have h1 := leaveAll_rooms st c r
    rw [if_pos h] at h1
    rw [mem_dropMember c x (st.s.rooms r) st (leaveAll st c) r rfl h1]
    tauto
  · have h1 := leaveAll_rooms st c r
    rw [if_neg h] at h1
    unfold members
    rw [h1]
    tauto

theorem joinRoom_members (st : State) (c x : Ptr) (room r : String) :
    x ∈ members (joinRoom st c room) r ↔ x ∈ members st r ∨ (r = room ∧ x = c) := by
  unfold members joinRoom
  by_cases h : r = room
  · subst h
    cases hr : st.s.rooms r with
    | none => simp [GoSet.insert, GoSet.empty]
    | some p => simp [GoSet.insert]; tauto
  · simp [h, Function.update_noteq]

theorem joinRoom_clientRooms (st : State) (c c' : Ptr) (room r : String) :
    r ∈ clientRooms (joinRoom st c room) c' ↔
      r ∈ clientRooms st c' ∨ (r = room ∧ c' = c) := by
  unfold clientRooms joinRoom
  by_cases h : c' = c
  · subst h
    simp [GoSet.insert]; tauto
  · simp [h, Function.update_noteq]

theorem joinRoom_consistent (st : State) (c : Ptr) (room : String) (h : Consistent st) :
    Consistent (joinRoom st c room) := by
  intro r x
  rw [joinRoom_members, joinRoom_clientRooms, h r x]

theorem leaveAll_consistent (st : State) (c : Ptr) (h : Consistent st) :
    Consistent (leaveAll st c) := by
  intro r x
  rw [leaveAll_members]
  by_cases hx : x = c
  · subst hx
    rw [leaveAll_clientRooms_self, h r x]
    simp
  · rw [leaveAll_clientRooms_other st c x hx, h r x]
    simp [hx]

theorem run_consistent (ops : List Op) :
    ∀ st : State, Consistent st → Consistent (run st ops) := by
  induction ops with
  | nil => intro st h; exact h
  | cons op ops ih =>
    intro st h
    cases op with
    | join c room => exact ih _ (joinRoom_consistent st c room h)
    | leave c => exact ih _ (leaveAll_consistent st c h)

theorem initial_consistent (nc : Bool) (heap : Ptr → Client)
    (hheap : ∀ c, (heap c).rooms.keys = []) :
    Consistent ⟨NewRealtimeServer nc, heap⟩ := by
  intro r c
  simp [members, clientRooms, NewRealtimeServer, hheap c]

theorem joinRoom_noEmpty (st : State) (c : Ptr) (room : String) (h : NoEmptyRooms st) :
    NoEmptyRooms (joinRoom st c room) := by
  intro r peers hr
  by_cases hrr : r = room
  · subst hrr
    have hc : c ∈ members (joinRoom st c r) r := (joinRoom_members st c c r r).2 (Or.inr ⟨rfl, rfl⟩)
    unfold members at hc
    rw [hr] at hc
    exact List.length_pos_of_mem hc
  · apply h r peers
    simpa [joinRoom, Function.update_noteq hrr] using hr

theorem dropMember_len (c : Ptr) (o : Option (GoSet Ptr)) (peers : GoSet Ptr)
    (h : dropMember c o = some peers) : 1 ≤ peers.len := by
  cases o with
  | none => simp [dropMember] at h
  | some p =>
    by_cases hl : (p.erase c).len = 0
    · simp [dropMember, hl] at h
    · simp only [dropMember, hl, if_false, Option.some.injEq] at h
      subst h
      exact Nat.one_le_iff_ne_zero.2 hl

theorem leaveAll_noEmpty (st : State) (c : Ptr) (h : NoEmptyRooms st) :
    NoEmptyRooms (leaveAll st c) := by
  intro r peers hr
  rw [leaveAll_rooms] at hr
  by_cases hm : r ∈ clientRooms st c
  · rw [if_pos hm] at hr
    exact dropMember_len c _ peers hr
  · rw [if_neg hm] at hr
    exact h r peers hr

theorem run_noEmpty (ops : List Op) :
    ∀ st : State, NoEmptyRooms st → NoEmptyRooms (run st ops) := by
  induction ops with
  | nil => intro st h; exact h
  | cons op ops ih =>
    intro st h
    cases op with
    | join c room => exact ih _ (joinRoom_noEmpty st c room h)
    | leave c => exact ih _ (leaveAll_noEmpty st c h)

theorem initial_noEmpty (nc : Bool) (heap : Ptr → Client) :
    NoEmptyRooms ⟨NewRealtimeServer nc, heap⟩ := by
  intro r peers hr
  simp [NewRealtimeServer] at hr

/-- A room all of whose members are `c` has no entry after `leaveAll c`, in a consistent
state. -/
theorem leaveAll_sole (st : State) (c : Ptr) (r : String) (h : Consistent st)
    (hsole : ∀ x, x ∈ members st r → x = c) :
    (leaveAll st c).s.rooms r = none ∨
      ((leaveAll st c).s.rooms r = st.s.rooms r ∧ members st r = []) := by
  rw [leaveAll_rooms]
  by_cases hm : r ∈ clientRooms st c
  · left
    rw [if_pos hm]
    cases hr : st.s.rooms r with
    | none => rfl
    | some p =>
      have hnil : (p.erase c).len = 0 := by
        apply List.length_eq_zero.2
        apply List.eq_nil_iff_forall_not_mem.2
        intro x hx
        have hx2 := (p.nodup.mem_erase_iff).1 hx
        have : x ∈ members st r := by unfold members; rw [hr]; exact hx2.2
        exact hx2.1 (hsole x this)
      simp [dropMember, hnil]
  · right
    rw [if_neg hm]
    refine ⟨rfl, ?_⟩
    apply List.eq_nil_iff_forall_not_mem.2
    intro x hx
    have := hsole x hx
    subst this
    exact hm ((h r x).1 hx)

theorem run_append (ops : List Op) (op : Op) :
    ∀ st : State, run st (ops ++ [op]) = run (run st ops) [op] := by
  induction ops with
  | nil => intro st; rfl
  | cons o ops ih =>
    intro st
    cases o with
    | join c room => exact ih _
    | leave c => exact ih _

theorem leaveAll_last_member (st : State) (c : Ptr) (r : String) (h : Consistent st)
    (hc : c ∈ members st r) (hsole : ∀ x, x ∈ members st r → x = c) :
    (leaveAll st c).s.rooms r = none := by
  rcases leaveAll_sole st c r h hsole with h1 | h1
  · exact h1
  · rw [h1.2] at hc
    cases hc

theorem leaveAll_not_member (st : State) (c : Ptr) (r : String) (h : Consistent st) :
    c ∉ members (leaveAll st c) r := by
  intro hm
  have h1 := (leaveAll_members st c c r).1 hm
  exact h1.2 ((h r c).1 h1.1) rfl

/-! ## The room registry: C1, C3, C10 -/

/-- C1: bidirectional consistency is an invariant of the room registry. From the empty
registry of `NewRealtimeServer` and clients whose own room sets are empty, after every
finite sequence of `joinRoom` and `leaveAll` calls, `c` is in `s.rooms[r]` if and only if
`r` is in `c.rooms`, for every room name `r` and client `c`. -/
theorem registry_bidirectional_consistency (nc : Bool) (heap : Ptr → Client)
    (hheap : ∀ c, (heap c).rooms.keys = []) (ops : List Op) (r : String) (c : Ptr) :
    c ∈ members (run ⟨NewRealtimeServer nc, heap⟩ ops) r ↔
      r ∈ clientRooms (run ⟨NewRealtimeServer nc, heap⟩ ops) c :=
  run_consistent ops _ (initial_consistent nc heap hheap) r c

theorem registry_bidirectional_consistency_witness :
    (∀ c, (freshHeap c).rooms.keys = []) ∧
    2 ∈ members (run ⟨NewRealtimeServer false, freshHeap⟩
      [Op.join 1 "room1", Op.join 2 "room1", Op.join 2 "room2", Op.leave 1]) "room1" ∧
    "room1" ∈ clientRooms (run ⟨NewRealtimeServer false, freshHeap⟩
      [Op.join 1 "room1", Op.join 2 "room1", Op.join 2 "room2", Op.leave 1]) 2 :=
  ⟨fun _ => rfl, by decide,
    (registry_bidirectional_consistency false freshHeap (fun _ => rfl)
      [Op.join 1 "room1", Op.join 2 "room1", Op.join 2 "room2", Op.leave 1] "room1" 2).1
      (by decide)⟩

/-- C3: in a registry state that satisfies bidirectional consistency, after `leaveAll(c)`
the client's own room set is empty, `c` is a member of no room, and every room whose sole
member was `c` has no entry in `s.rooms`. -/
theorem leaveAll_clears_client (st : State) (c : Ptr) (h : Consistent st) :
    clientRooms (leaveAll st c) c = [] ∧
    (∀ r : String, c ∉ members (leaveAll st c) r) ∧
    (∀ r : String, c ∈ members st r → (∀ x, x ∈ members st r → x = c) →
      (leaveAll st c).s.rooms r = none) :=
  ⟨leaveAll_clientRooms_self st c, fun r => leaveAll_not_member st c r h,
    fun r hc hsole => leaveAll_last_member st c r h hc hsole⟩

theorem leaveAll_clears_client_witness :
    Consistent (joinRoom ⟨NewRealtimeServer false, freshHeap⟩ 1 "room1") ∧
    1 ∈ members (joinRoom ⟨NewRealtimeServer false, freshHeap⟩ 1 "room1") "room1" ∧
    clientRooms (leaveAll (joinRoom ⟨NewRealtimeServer false, freshHeap⟩ 1 "room1") 1) 1 = [] ∧
    1 ∉ members (leaveAll (joinRoom ⟨NewRealtimeServer false, freshHeap⟩ 1 "room1") 1) "room1" ∧
    (leaveAll (joinRoom ⟨NewRealtimeServer false, freshHeap⟩ 1 "room1") 1).s.rooms "room1"
      = none :=
  have hc : Consistent (joinRoom ⟨NewRealtimeServer false, freshHeap⟩ 1 "room1") :=
    joinRoom_consistent _ 1 "room1" (initial_consistent false freshHeap (fun _ => rfl))
  have hm : members (joinRoom ⟨NewRealtimeServer false, freshHeap⟩ 1 "room1") "room1" = [1] := by
    decide
  ⟨hc, by decide,
    (leaveAll_clears_client _ 1 hc).1,
    (leaveAll_clears_client _ 1 hc).2.1 "room1",
    (leaveAll_clears_client _ 1 hc).2.2 "room1" (by decide)
      (fun x hx => by rw [hm] at hx; simpa using hx)⟩

/-- C10: no empty rooms is an invariant of the room registry. From the empty registry of
`NewRealtimeServer`, after every finite sequence of `joinRoom` and `leaveAll` calls, every
key of `s.rooms` has at least one member; and when the last member of a room leaves, the
room has no entry afterwards. -/
theorem registry_no_empty_rooms (nc : Bool) (heap : Ptr → Client)
    (hheap : ∀ c, (heap c).rooms.keys = []) (ops : List Op) :
    (∀ (r : String) (peers : GoSet Ptr),
      (run ⟨NewRealtimeServer nc, heap⟩ ops).s.rooms r = some peers → 1 ≤ peers.len) ∧
    (∀ (c : Ptr) (r : String), c ∈ members (run ⟨NewRealtimeServer nc, heap⟩ ops) r →
      (∀ x, x ∈ members (run ⟨NewRealtimeServer nc, heap⟩ ops) r → x = c) →
      (run ⟨NewRealtimeServer nc, heap⟩ (ops ++ [Op.leave c])).s.rooms r = none) := by
  refine ⟨run_noEmpty ops _ (initial_noEmpty nc heap), ?_⟩
  intro c r hc hsole
  rw [run_append]
  exact leaveAll_last_member _ c r
    (run_consistent ops _ (initial_consistent nc heap hheap)) hc hsole

theorem registry_no_empty_rooms_witness :
    (∀ c, (freshHeap c).rooms.keys = []) ∧
    (∀ (r : String) (peers : GoSet Ptr),
      (run ⟨NewRealtimeServer false, freshHeap⟩
        [Op.join 1 "room1", Op.join 2 "room2", Op.leave 2]).s.rooms r = some peers →
      1 ≤ peers.len) ∧
    (run ⟨NewRealtimeServer false, freshHeap⟩
        ([Op.join 1 "room1", Op.join 2 "room2", Op.leave 2] ++ [Op.leave 1])).s.rooms "room1"
      = none :=
  have hm : members (run ⟨NewRealtimeServer false, freshHeap⟩
      [Op.join 1 "room1", Op.join 2 "room2", Op.leave 2]) "room1" = [1] := by decide
  ⟨fun _ => rfl,
    (registry_no_empty_rooms false freshHeap (fun _ => rfl)
      [Op.join 1 "room1", Op.join 2 "room2", Op.leave 2]).1,
    (registry_no_empty_rooms false freshHeap (fun _ => rfl)
      [Op.join 1 "room1", Op.join 2 "room2", Op.leave 2]).2 1 "room1" (by decide)
      (fun x hx => by rw [hm] at hx; simpa using hx)⟩

/-! ## The dispatcher: C7 -/

/-- C7: the dispatcher routes purely by type. For every client and envelope,
`processMessage` returns true, and: `ping` sends one `pong` reply with the same id and
leaves the registry alone; `subscribe` with a room joins the room and sends one
`subscribed` reply with that room and id; `subscribe` without a room does nothing;
`action` hands the envelope to `publishAction` and sends no reply; any other type does
nothing. -/
theorem processMessage_routes_by_type (st : State) (now : Nat) (c : Ptr) (e : Envelope) :
    (processMessage st now c e).1 = true ∧
    (e.Typ = "ping" →
      processMessage st now c e = (true, st, [Event.send c
        { V := 1, Typ := "pong", Room := "", From := "", ID := e.ID, TS := now,
          Payload := "" }])) ∧
    (e.Typ = "subscribe" → e.Room ≠ "" →
      processMessage st now c e = (true, joinRoom st c e.Room, [Event.send c
        { V := 1, Typ := "subscribed", Room := e.Room, From := "", ID := e.ID, TS := now,
          Payload := "" }])) ∧
    (e.Typ = "subscribe" → e.Room = "" → processMessage st now c e = (true, st, [])) ∧
    (e.Typ = "action" →
      processMessage st now c e = (true, st, publishAction st.s e) ∧
      ∀ p, sendsTo p (processMessage st now c e).2.2 = 0) ∧
    (e.Typ ≠ "ping" → e.Typ ≠ "subscribe" → e.Typ ≠ "action" →
      processMessage st now c e = (true, st, [])) := by
  refine ⟨?_, ?_, ?_, ?_, ?_, ?_⟩
  · unfold processMessage
    split_ifs <;> rfl
  · intro h
    simp [processMessage, h]
  · intro h hr
    have h1 : e.Typ ≠ "ping" := by rw [h]; decide
    simp [processMessage, h, hr]
  · intro h hr
    have h1 : e.Typ ≠ "ping" := by rw [h]; decide
    simp [processMessage, h, hr]
  · intro h
    have hres : processMessage st now c e = (true, st, publishAction st.s e) := by
      simp [processMessage, h]
    refine ⟨hres, ?_⟩
    intro p
    rw [hres]
    unfold publishAction
    split_ifs <;> rfl
  · intro h1 h2 h3
    simp [processMessage, h1, h2, h3]

theorem processMessage_routes_by_type_witness :
    processMessage ⟨NewRealtimeServer true, freshHeap⟩ 7 1
        { V := 1, Typ := "subscribe", Room := "lobby", From := "", ID := "m1", TS := 3,
          Payload := "" }
      = (true, joinRoom ⟨NewRealtimeServer true, freshHeap⟩ 1 "lobby", [Event.send 1
        { V := 1, Typ := "subscribed", Room := "lobby", From := "", ID := "m1", TS := 7,
          Payload := "" }]) :=
  (processMessage_routes_by_type ⟨NewRealtimeServer true, freshHeap⟩ 7 1
    { V := 1, Typ := "subscribe", Room := "lobby", From := "", ID := "m1", TS := 3,
      Payload := "" }).2.2.1 (by decide) (by decide)

/-! ## Inbound fanout: C5, C6, C2 -/

theorem splitChars_no_sep (sep : Char) (xs : List Char) (h : sep ∉ xs) :
    splitChars sep xs = [xs] := by
  induction xs with
  | nil => rfl
  | cons x xs ih =>
    have hx : x ≠ sep := fun e => h (by rw [e]; exact List.mem_cons_self _ _)
    have hxs : sep ∉ xs := fun m => h (List.mem_cons_of_mem _ m)
    simp [splitChars, hx, ih hxs]

theorem splitChars_append (sep : Char) (xs ys : List Char) (h : sep ∉ xs) :
    splitChars sep (xs ++ sep :: ys) = xs :: splitChars sep ys := by
  induction xs with
  | nil => simp [splitChars]
  | cons x xs ih =>
    have hx : x ≠ sep := fun e => h (by rw [e]; exact List.mem_cons_self _ _)
    have hxs : sep ∉ xs := fun m => h (List.mem_cons_of_mem _ m)
    simp [splitChars, hx, ih hxs]

theorem Split_room_update (R : String) (hR : '.' ∉ R.data) :
    Split ("room." ++ R ++ ".update") = ["room", R, "update"] := by
  have hd : ("room." ++ R ++ ".update").data =
      ['r', 'o', 'o', 'm'] ++ '.' :: (R.data ++ '.' :: ['u', 'p', 'd', 'a', 't', 'e']) := by
    simp [String.data_append]
  unfold Split
  rw [hd, splitChars_append '.' _ _ (by decide), splitChars_append '.' _ _ hR,
    splitChars_no_sep '.' _ (by decide)]
  rfl

theorem members_nodup (st : State) (r : String) : (members st r).Nodup := by
  unfold members
  cases st.s.rooms r with
  | none => exact List.nodup_nil
  | some p => exact p.nodup

theorem sendsTo_append (p : Ptr) (xs ys : List Event) :
    sendsTo p (xs ++ ys) = sendsTo p xs + sendsTo p ys := by
  induction xs with
  | nil => simp [sendsTo]
  | cons x xs ih =>
    cases x <;> simp [sendsTo, ih, Nat.add_assoc]

theorem sendsTo_map_send (p : Ptr) (v : Envelope) (L : List Ptr) :
    sendsTo p (L.map fun peer => Event.send peer v) = L.count p := by
  induction L with
  | nil => rfl
  | cons q L ih =>
    by_cases h : q = p
    · simp [sendsTo, ih, h, Nat.add_comm]
    · simp [sendsTo, ih, h, List.count_cons]

theorem handleRoomUpdate_room (st : State) (now : Nat) (R : String) (env : Envelope)
    (hR : '.' ∉ R.data) :
    handleRoomUpdate st now ⟨"room." ++ R ++ ".update", some env⟩ =
      (st, [Event.rlock] ++
        (members st R).map (fun peer => Event.send peer { env with V := 1, TS := now })
        ++ [Event.runlock]) := by
  unfold handleRoomUpdate
  simp only [Split_room_update R hR]

/-- C5: inbound fanout reaches exactly the members of the addressed room. For every
state, every room name `R` without a dot and every payload that parses as an envelope,
`handleRoomUpdate` on subject `room.R.update` makes exactly one send to each client in
`s.rooms[R]` and none to any other client, sends nothing at all when the room has no
member, and leaves the state as it was. -/
theorem fanout_exactly_room_members (st : State) (now : Nat) (R : String) (env : Envelope)
    (hR : '.' ∉ R.data) :
    (handleRoomUpdate st now ⟨"room." ++ R ++ ".update", some env⟩).1 = st ∧
    (∀ p : Ptr, sendsTo p (handleRoomUpdate st now ⟨"room." ++ R ++ ".update", some env⟩).2 =
      if p ∈ members st R then 1 else 0) ∧
    (members st R = [] →
      (handleRoomUpdate st now ⟨"room." ++ R ++ ".update", some env⟩).2 =
        [Event.rlock, Event.runlock]) := by
  rw [handleRoomUpdate_room st now R env hR]
  refine ⟨rfl, ?_, ?_⟩
  · intro p
    show sendsTo p ([Event.rlock] ++
        (members st R).map (fun peer => Event.send peer { env with V := 1, TS := now })
        ++ [Event.runlock]) = _
    rw [sendsTo_append, sendsTo_append, sendsTo_map_send]
    show 0 + List.count p (members st R) + 0 = _
    rw [Nat.zero_add, Nat.add_zero]
    exact List.count_eq_of_nodup (members_nodup st R)
  · intro h
    simp [h]

theorem fanout_exactly_room_members_witness :
    '.' ∉ "lobby".data ∧
    sendsTo 1 (handleRoomUpdate
      (run ⟨NewRealtimeServer true, freshHeap⟩
        [Op.join 1 "lobby", Op.join 2 "lobby", Op.join 3 "other"]) 9
      ⟨"room." ++ "lobby" ++ ".update", some
        { V := 1, Typ := "update", Room := "lobby", From := "", ID := "u1", TS := 0,
          Payload := "" }⟩).2 = 1 ∧
    sendsTo 3 (handleRoomUpdate
      (run ⟨NewRealtimeServer true, freshHeap⟩
        [Op.join 1 "lobby", Op.join 2 "lobby", Op.join 3 "other"]) 9
      ⟨"room." ++ "lobby" ++ ".update", some
        { V := 1, Typ := "update", Room := "lobby", From := "", ID := "u1", TS := 0,
          Payload := "" }⟩).2 = 0 :=
  have h := fanout_exactly_room_members
    (run ⟨NewRealtimeServer true, freshHeap⟩
      [Op.join 1 "lobby", Op.join 2 "lobby", Op.join 3 "other"]) 9 "lobby"
    { V := 1, Typ := "update", Room := "lobby", From := "", ID := "u1", TS := 0,
      Payload := "" } (by decide)
  ⟨by decide, (h.2.1 1).trans (by decide), (h.2.1 3).trans (by decide)⟩

/-- The two outcomes of `handleRoomUpdate`: the message is dropped, or the envelope is
re-stamped and sent to the members of the room named by the subject. -/
theorem handleRoomUpdate_cases (st : State) (now : Nat) (m : Msg) :
    (handleRoomUpdate st now m).2 = [] ∨
    ∃ (roomID : String) (env0 : Envelope), m.Data = some env0 ∧
      (handleRoomUpdate st now m).2 = [Event.rlock] ++
        (members st roomID).map (fun peer => Event.send peer { env0 with V := 1, TS := now })
        ++ [Event.runlock] := by
  unfold handleRoomUpdate
  split
  · next roomID _ _ _ =>
    cases m.Data with
    | none => exact Or.inl rfl
    | some env0 => exact Or.inr ⟨roomID, env0, rfl, rfl⟩
  · exact Or.inl rfl

/-- C6, as the code has it: a fanout that is not dropped takes the read lock first,
releases it last, and makes all its sends in between; a dropped message (malformed subject
or payload) takes no lock and sends nothing. -/
theorem fanout_sends_inside_read_lock (st : State) (now : Nat) (m : Msg) :
    (handleRoomUpdate st now m).2 = [] ∨
    ∃ sends : List Event, (∀ e, e ∈ sends → isSend e = true) ∧
      (handleRoomUpdate st now m).2 = [Event.rlock] ++ sends ++ [Event.runlock] := by
  rcases handleRoomUpdate_cases st now m with h | ⟨roomID, env0, _, h⟩
  · exact Or.inl h
  · right
    refine ⟨_, ?_, h⟩
    intro e he
    rcases List.mem_map.1 he with ⟨peer, _, rfl⟩
    rfl

/-- C6 fails as stated: with one member in the room, the send to that member happens
while the read lock is held. -/
theorem fanout_send_while_read_locked :
    (handleRoomUpdate (joinRoom ⟨NewRealtimeServer true, freshHeap⟩ 1 "lobby") 9
      ⟨"room.lobby.update", some
        { V := 1, Typ := "update", Room := "lobby", From := "", ID := "u1", TS := 0,
          Payload := "" }⟩).2
      = [Event.rlock,
         Event.send 1 { V := 1, Typ := "update", Room := "lobby", From := "", ID := "u1",
                        TS := 9, Payload := "" },
         Event.runlock] ∧
    sendUnderRLock false (handleRoomUpdate (joinRoom ⟨NewRealtimeServer true, freshHeap⟩ 1 "lobby") 9
      ⟨"room.lobby.update", some
        { V := 1, Typ := "update", Room := "lobby", From := "", ID := "u1", TS := 0,
          Payload := "" }⟩).2 = true := by
  decide

theorem outgoing_append (xs ys : List Event) :
    outgoing (xs ++ ys) = outgoing xs ++ outgoing ys := by
  induction xs with
  | nil => rfl
  | cons x xs ih => cases x <;> simp [outgoing, ih]

theorem outgoing_map_send (v : Envelope) (L : List Ptr) :
    outgoing (L.map fun peer => Event.send peer v) = L.map fun _ => v := by
  induction L with
  | nil => rfl
  | cons q L ih => simp [outgoing, ih]

theorem randomID_length (draws : Fin 16 → Fin 36) : (randomID draws).length = 16 := by
  simp [randomID, String.length]

theorem randomID_ne_empty (draws : Fin 16 → Fin 36) : randomID draws ≠ "" := by
  intro h
  have := randomID_length draws
  rw [h] at this
  exact absurd this (by decide)

/-- The defaults of `handleClientMessages`: after them the version is not zero, the id
is not empty and the timestamp is set. -/
theorem normalize_populated (env : Envelope) (draws : Fin 16 → Fin 36) (now : Nat)
    (hnow : now ≠ 0) :
    (normalize env draws now).V ≠ 0 ∧ (normalize env draws now).ID ≠ "" ∧
      (normalize env draws now).TS ≠ 0 := by
  have hid := randomID_ne_empty draws
  unfold normalize
  by_cases h1 : env.V = 0 <;> by_cases h2 : env.ID = "" <;> by_cases h3 : env.TS = 0 <;>
    simp [h1, h2, h3, hid, hnow]

/-- Every envelope `processMessage` lets out has the three fields populated when its
argument has. -/
theorem processMessage_outgoing (st : State) (now : Nat) (c : Ptr) (e : Envelope)
    (hnow : now ≠ 0) (he : e.V ≠ 0 ∧ e.ID ≠ "" ∧ e.TS ≠ 0) :
    ∀ v, v ∈ outgoing (processMessage st now c e).2.2 → v.V ≠ 0 ∧ v.ID ≠ "" ∧ v.TS ≠ 0 := by
  intro v hv
  unfold processMessage at hv
  split_ifs at hv with h1 h2 h3 h4
  · simp only [outgoing, List.mem_singleton] at hv
    subst hv
    exact ⟨Int.one_ne_zero, he.2.1, hnow⟩
  · simp only [outgoing, List.mem_singleton] at hv
    subst hv
    exact ⟨Int.one_ne_zero, he.2.1, hnow⟩
  · simp [outgoing] at hv
  · unfold publishAction at hv
    split_ifs at hv
    · simp [outgoing] at hv
    · simp only [outgoing, List.mem_singleton] at hv
      subst hv
      exact he
  · simp [outgoing] at hv

/-- The dispatcher side of the envelope invariant: every reply sent and every action
published by `handleClientMessages` has a non-zero version, a non-empty id and a set
timestamp, whatever the client supplied. -/
theorem handleClientMessages_outgoing (c : Ptr) (reads : List Read) :
    ∀ st : State, (∀ r, r ∈ reads → r.tNorm ≠ 0 ∧ r.tReply ≠ 0) →
      ∀ v, v ∈ outgoing (handleClientMessages st c reads).2 →
        v.V ≠ 0 ∧ v.ID ≠ "" ∧ v.TS ≠ 0 := by
  induction reads with
  | nil =>
    intro st _ v hv
    simp [handleClientMessages, outgoing] at hv
  | cons r rest ih =>
    intro st hr v hv
    have hr0 := hr r (List.mem_cons_self _ _)
    have hrest : ∀ r', r' ∈ rest → r'.tNorm ≠ 0 ∧ r'.tReply ≠ 0 :=
      fun r' h => hr r' (List.mem_cons_of_mem _ h)
    have hp := processMessage_outgoing st r.tReply c (normalize r.env r.draws r.tNorm) hr0.2
      (normalize_populated r.env r.draws r.tNorm hr0.1)
    unfold handleClientMessages at hv
    dsimp only at hv
    split_ifs at hv
    · simp only [outgoing_append, List.mem_append] at hv
      rcases hv with hv | hv
      · exact hp v hv
      · exact ih _ hrest v hv
    · simp only [outgoing_append, List.mem_append] at hv
      rcases hv with hv | hv
      · exact hp v hv
      · simp [outgoing] at hv

/-- The fanout side: `handleRoomUpdate` stamps version and timestamp and passes the id
of the backbone payload on as it is. -/
theorem handleRoomUpdate_outgoing (st : State) (now : Nat) (m : Msg) :
    ∀ v, v ∈ outgoing (handleRoomUpdate st now m).2 →
      v.V = 1 ∧ v.TS = now ∧ ∃ env0, m.Data = some env0 ∧ v.ID = env0.ID := by
  intro v hv
  rcases handleRoomUpdate_cases st now m with h | ⟨roomID, env0, hd, h⟩
  · rw [h] at hv
    cases hv
  · rw [h, outgoing_append, outgoing_append, outgoing_map_send] at hv
    have hv' : v ∈ (members st roomID).map
        (fun _ => ({ env0 with V := 1, TS := now } : Envelope)) := by
      simpa [outgoing] using hv
    rcases List.mem_map.1 hv' with ⟨_, _, rfl⟩
    exact ⟨rfl, rfl, env0, hd, rfl⟩

/-- C2 at the failing input: a backbone payload without an id, for a room with one member.
The update envelope sent to the member has version 1 and the new timestamp, and an empty
id. -/
theorem fanout_sends_empty_id :
    outgoing (handleRoomUpdate (joinRoom ⟨NewRealtimeServer true, freshHeap⟩ 1 "lobby")
      1730000000000000000
      ⟨"room.lobby.update", some
        { V := 1, Typ := "update", Room := "", From := "", ID := "", TS := 0,
          Payload := "" }⟩).2
      = [{ V := 1, Typ := "update", Room := "", From := "", ID := "",
           TS := 1730000000000000000, Payload := "" }] := by
  decide

/-! ## Token extraction: C4 -/

theorem ToLower_length (s : List Char) : (ToLower s).length = s.length := by
  simp [ToLower]

theorem extractToken_bearer (pre tok : List Char) (q : Option String)
    (hpre : ToLower pre = "bearer ".data) (htok : TrimSpace tok ≠ []) :
    extractToken ⟨some (String.mk (pre ++ tok)), q⟩ = String.mk (TrimSpace tok) := by
  have hlen : pre.length = 7 := by
    have := ToLower_length pre
    rw [hpre] at this
    exact this.symm
  have hp : HasPrefix (ToLower (pre ++ tok)) "bearer ".data = true := by
    unfold HasPrefix
    rw [ List.isPrefixOf_iff_prefix]
    have : ToLower (pre ++ tok) = "bearer ".data ++ ToLower tok := by
      rw [← hpre]; simp [ToLower]
    rw [this]
    exact List.prefix_append _ _
  have hd : (pre ++ tok).drop 7 = tok := by
    rw [← hlen]; exact List.drop_left _ _
  unfold extractToken
  simp only [Option.getD_some, hp, if_true, hd, htok, if_false]

theorem extractToken_fallback (a : String) (q : Option String)
    (h : HasPrefix (ToLower a.data) "bearer ".data = false ∨ TrimSpace (a.data.drop 7) = []) :
    extractToken ⟨some a, q⟩ = q.getD "" := by
  unfold extractToken
  rcases h with h | h
  · simp [h]
  · by_cases hp : HasPrefix (ToLower a.data) "bearer ".data = true
    · simp [hp, h]
    · simp [hp]

/-- C4, as the code has it: the header wins whenever it yields a credential. If the
`Authorization` value starts with `bearer ` in any letter case and the rest, trimmed of
white space, is not empty, `extractToken` returns that trimmed rest whatever the `token`
query parameter holds. The query parameter's value is returned when there is no
`Authorization` header, and also when the header is not a bearer header or its credential
is blank. -/
theorem extractToken_header_then_query :
    (∀ (pre tok : List Char) (q : Option String),
      ToLower pre = "bearer ".data → TrimSpace tok ≠ [] →
      extractToken ⟨some (String.mk (pre ++ tok)), q⟩ = String.mk (TrimSpace tok)) ∧
    (∀ q : Option String, extractToken ⟨none, q⟩ = q.getD "") ∧
    (∀ (a : String) (q : Option String),
      (HasPrefix (ToLower a.data) "bearer ".data = false ∨ TrimSpace (a.data.drop 7) = []) →
      extractToken ⟨some a, q⟩ = q.getD "") :=
  ⟨extractToken_bearer, fun q => by cases q <;> rfl, extractToken_fallback⟩

theorem extractToken_header_then_query_witness :
    extractToken ⟨some "Bearer headerToken", some "qparam"⟩ = "headerToken" ∧
    extractToken ⟨some "bEARER  tok ", some "qparam"⟩ = "tok" ∧
    extractToken ⟨none, some "onlyQuery"⟩ = "onlyQuery" :=
  ⟨extractToken_header_then_query.1 "Bearer ".data "headerToken".data (some "qparam")
      (by decide) (by decide),
    extractToken_header_then_query.1 "bEARER ".data " tok ".data (some "qparam")
      (by decide) (by decide),
    extractToken_header_then_query.2.1 (some "onlyQuery")⟩

/-- C4 fails as stated: with an `Authorization` header present the query parameter's value
is returned, both for a header that is not a bearer header and for a bearer header whose
credential is blank. -/
theorem extractToken_query_despite_header :
    extractToken ⟨some "Basic abc", some "qparam"⟩ = "qparam" ∧
    extractToken ⟨some "Bearer  ", some "qparam"⟩ = "qparam" := by
  decide

/-! ## Reconnect backoff: C8, C9 -/

theorem exponentialBackoff_eq (attempt : Int) (n : Nat) (h0 : 0 ≤ attempt)
    (h9 : attempt ≤ 9) :
    exponentialBackoff attempt n =
      some (min (10 * Second) (250 * Millisecond * 2 ^ attempt.toNat) + (n : Int) * Millisecond) := by
  have hs : scaledBase attempt = some (250 * Millisecond * 2 ^ attempt.toNat) := by
    unfold scaledBase
    rw [if_neg (by omega), if_pos (by omega)]
  have hr : randInt 0 250 n = (n : Int) := by
    unfold randInt
    rw [if_neg (by decide)]
    omega
  unfold exponentialBackoff
  rw [hs, Option.map_some', hr]
  generalize 250 * Millisecond * 2 ^ attempt.toNat = X
  dsimp only
  rw [min_def]
  split_ifs with h1 h2 h2
  · rfl
  · exfalso; omega
  · have hX : X = 10 * Second := by omega
    rw [hX]
  · rfl

/-- C8: backoff bounds. For every attempt in 0..9 and every jitter value `randInt(0, 250)`
can return, `exponentialBackoff(attempt)` returns a delay that is strictly positive, at
most 10 s + 250 ms, below 11 s, and equal to `min(10 s, 250 ms * 2^attempt)` plus the
jitter in milliseconds. -/
theorem exponentialBackoff_bounds (attempt : Int) (n : Nat) (h0 : 0 ≤ attempt)
    (h9 : attempt ≤ 9) (hn : n < 250) :
    ∃ d : Int, exponentialBackoff attempt n = some d ∧
      0 < d ∧ d ≤ 10 * Second + 250 * Millisecond ∧ d < 11 * Second ∧
      0 ≤ randInt 0 250 n ∧ randInt 0 250 n < 250 ∧
      d = min (10 * Second) (250 * Millisecond * 2 ^ attempt.toNat)
            + randInt 0 250 n * Millisecond := by
  have hr : randInt 0 250 n = (n : Int) := by
    unfold randInt
    rw [if_neg (by decide)]
    omega
  refine ⟨_, exponentialBackoff_eq attempt n h0 h9, ?_⟩
  rw [hr]
  have hpow : (1 : Int) ≤ 2 ^ attempt.toNat := one_le_pow₀ (by norm_num)
  have hd : (250000000 : Int) ≤ 250 * Millisecond * 2 ^ attempt.toNat := by
    unfold Millisecond; nlinarith
  have hmin1 : min (10 * Second) (250 * Millisecond * 2 ^ attempt.toNat) ≤ 10 * Second :=
    min_le_left _ _
  have hmin2 : (250000000 : Int) ≤ min (10 * Second) (250 * Millisecond * 2 ^ attempt.toNat) :=
    le_min (by unfold Second; norm_num) hd
  unfold Second Millisecond at *
  refine ⟨by omega, by omega, by omega, by omega, by omega, rfl⟩

theorem exponentialBackoff_bounds_witness :
    exponentialBackoff 9 249 = some 10249000000 ∧
    ∃ d : Int, exponentialBackoff 3 17 = some d ∧
      0 < d ∧ d ≤ 10 * Second + 250 * Millisecond ∧ d < 11 * Second ∧
      0 ≤ randInt 0 250 17 ∧ randInt 0 250 17 < 250 ∧
      d = min (10 * Second) (250 * Millisecond * 2 ^ (3 : Int).toNat)
            + randInt 0 250 17 * Millisecond :=
  ⟨by decide, exponentialBackoff_bounds 3 17 (by decide) (by decide) (by decide)⟩

/-- C9: the backoff is non-decreasing before the cap is reached. For attempts `a < b` in
0..9 whose un-jittered delays are both below the 10 s cap, and for every pair of jitter
values, `exponentialBackoff(a) <= exponentialBackoff(b)`. -/
theorem exponentialBackoff_monotone_below_cap (a b : Int) (na nb : Nat)
    (h0 : 0 ≤ a) (hab : a < b) (hb9 : b ≤ 9)
    (hacap : 250 * Millisecond * 2 ^ a.toNat < 10 * Second)
    (hbcap : 250 * Millisecond * 2 ^ b.toNat < 10 * Second)
    (hna : na < 250) (_hnb : nb < 250) :
    ∃ da db : Int, exponentialBackoff a na = some da ∧ exponentialBackoff b nb = some db ∧
      da ≤ db := by
  refine ⟨_, _, exponentialBackoff_eq a na h0 (by omega),
    exponentialBackoff_eq b nb (by omega) hb9, ?_⟩
  rw [min_eq_right (le_of_lt hacap), min_eq_right (le_of_lt hbcap)]
  have hlt : a.toNat < b.toNat := by omega
  have hpow : (2 : Int) ^ (a.toNat + 1) ≤ 2 ^ b.toNat :=
    pow_le_pow_right₀ (by norm_num) hlt
  have hpa : (1 : Int) ≤ 2 ^ a.toNat := one_le_pow₀ (by norm_num)
  rw [pow_succ] at hpow
  unfold Millisecond
  have hna' : (na : Int) < 250 := by exact_mod_cast hna
  have hnb' : (0 : Int) ≤ nb := Int.natCast_nonneg nb
  nlinarith

theorem exponentialBackoff_monotone_below_cap_witness :
    exponentialBackoff 4 249 = some 4249000000 ∧
    exponentialBackoff 5 0 = some 8000000000 ∧
    ∃ da db : Int, exponentialBackoff 4 249 = some da ∧ exponentialBackoff 5 0 = some db ∧
      da ≤ db :=
  ⟨by decide, by decide,
    exponentialBackoff_monotone_below_cap 4 5 249 0 (by decide) (by decide) (by decide)
      (by decide) (by decide) (by decide) (by decide)⟩

end Realtime
